import Mathlib

/-!
Shallow embedding of the midi-watch repository (Python) for specification
verification.  The data model follows `mido` as used by the source: a MIDI
file is a `ticks_per_beat` value plus a list of tracks, a track is an ordered
list of messages, and a message is a delta time together with a typed event.
All non-note messages are collapsed into `Ev.meta subtype payload`, which is
exactly the granularity the source code observes (it only ever inspects
`msg.type`, and for track-name messages the `name` field, which we store in
`payload`).  Python integers are modelled as `Int` (`Nat` for the fields mido
validates to be in 0..127 or 0..15), and Python float timestamps as `Rat`.
Fallible Python functions (those that can raise) return `Except String`.
-/

/-- Typed MIDI event, mirroring the message kinds the source distinguishes:
`note_on`, `note_off`, and everything else by its `msg.type` string. -/
inductive Ev where
  | noteOn (channel note velocity : Nat)
  | noteOff (channel note velocity : Nat)
  | meta (subtype : String) (payload : String)
deriving DecidableEq, Repr

/-- A mido message: a delta time (ticks since the previous event in the same
track) plus the event.  Delta times are `Int`, as in Python. -/
structure Msg where
  time : Int
  ev : Ev
deriving DecidableEq, Repr

/-- A mido track is an ordered list of messages. -/
abbrev Track := List Msg

/-- A mido MidiFile as the source uses it: `ticks_per_beat` and the tracks. -/
structure MidiFile where
  ticks_per_beat : Nat
  tracks : List Track
deriving DecidableEq, Repr

/-- Event is a note event (`msg.type in ("note_on", "note_off")`). -/
def Ev.isNote : Ev → Bool
  | .noteOn _ _ _ => true
  | .noteOff _ _ _ => true
  | .meta _ _ => false

/-- Event is a note-on with positive velocity (starts a sounding note). -/
def Ev.isOnPos : Ev → Bool
  | .noteOn _ _ v => v > 0
  | _ => false

/-- Event is a terminator: `note_off`, or `note_on` with velocity 0. -/
def Ev.isTerm : Ev → Bool
  | .noteOn _ _ v => v = 0
  | .noteOff _ _ _ => true
  | .meta _ _ => false

/-- The dictionary key the source uses for pairing: `(msg.note, msg.channel)`. -/
def Ev.key : Ev → Nat × Nat
  | .noteOn c n _ => (n, c)
  | .noteOff c n _ => (n, c)
  | .meta _ _ => (0, 0)

/-! ### strip_to_notes (src/transformers.py lines 6-45) -/

/-- Keep test of `strip_to_notes`: note events are kept; any other message is
kept iff its type is `end_of_track` or listed in `keep_meta_subtypes`. -/
def keepEvent (keepMeta : List String) (e : Ev) : Bool :=
  match e with
  | .noteOn _ _ _ => true
  | .noteOff _ _ _ => true
  | .meta s _ => s == "end_of_track" || keepMeta.contains s

/-- Inner loop of `strip_to_notes` over one track: `acc` is the
`accumulated_time` variable (delta time of dropped events folded into the next
retained event, then reset to 0).  Retained messages are rebuilt with the same
event fields, which is what the source constructors do. -/
def stripGo (keepMeta : List String) (acc : Int) : Track → Track
  | [] => []
  | m :: r =>
    if keepEvent keepMeta m.ev then
      { time := acc + m.time, ev := m.ev } :: stripGo keepMeta 0 r
    else
      stripGo keepMeta (acc + m.time) r

/-- Embedding of `strip_to_notes` from src/transformers.py. -/
def strip_to_notes (midi : MidiFile) (keepMeta : List String) : MidiFile :=
  { ticks_per_beat := midi.ticks_per_beat
    tracks := midi.tracks.map (stripGo keepMeta 0) }

/-! ### transpose_notes (src/transformers.py lines 48-71) -/

/-- The clamp used by the source: `max(0, min(127, msg.note + semitones))`,
landing back in `Nat` because the result is in 0..127. -/
def clampNote (x : Int) : Nat := (max 0 (min 127 x)).toNat

/-- Per-event action of `transpose_notes`: note events are rebuilt with the
clamped note and identical channel, velocity; other events pass through. -/
def transposeEv (s : Int) : Ev → Ev
  | .noteOn c n v => .noteOn c (clampNote ((n : Int) + s)) v
  | .noteOff c n v => .noteOff c (clampNote ((n : Int) + s)) v
  | .meta t p => .meta t p

/-- Embedding of `transpose_notes` from src/transformers.py.  Note messages
are rebuilt with `time=msg.time`, so the message delta time is unchanged. -/
def transpose_notes (midi : MidiFile) (semitones : Int) : MidiFile :=
  { ticks_per_beat := midi.ticks_per_beat
    tracks := midi.tracks.map (List.map
      (fun m => { time := m.time, ev := transposeEv semitones m.ev })) }

/-! ### force_channel_zero (src/transformers.py lines 156-177) -/

/-- Per-event action of `force_channel_zero`. -/
def forceEv : Ev → Ev
  | .noteOn _ n v => .noteOn 0 n v
  | .noteOff _ n v => .noteOff 0 n v
  | .meta t p => .meta t p

/-- Embedding of `force_channel_zero` from src/transformers.py. -/
def force_channel_zero (midi : MidiFile) : MidiFile :=
  { ticks_per_beat := midi.ticks_per_beat
    tracks := midi.tracks.map (List.map
      (fun m => { time := m.time, ev := forceEv m.ev })) }

/-! ### set_track_names (src/transformers.py lines 180-217) -/

/-- First loop of `set_track_names` over one track: replace every
`track_name` message (preserving its delta time) and record whether one was
found.  Returns `(new_track, track_name_set)`. -/
def setNameLoop (name : String) : Track → Track × Bool
  | [] => ([], false)
  | m :: r =>
    let (t, b) := setNameLoop name r
    match m.ev with
    | .meta "track_name" _ => ({ time := m.time, ev := .meta "track_name" name } :: t, true)
    | _ => (m :: t, b)

/-- Embedding of the per-track body of `set_track_names`: replace existing
track-name messages, else insert one at the beginning, taking over the first
message delta time (that first message then gets delta 0). -/
def setTrackNameTrack (name : String) (tr : Track) : Track :=
  let p := setNameLoop name tr
  if p.2 then p.1
  else
    match p.1 with
    | [] => [{ time := 0, ev := .meta "track_name" name }]
    | first :: rest =>
      if first.time = 0 then
        { time := 0, ev := Ev.meta "track_name" name } :: first :: rest
      else
        { time := first.time, ev := Ev.meta "track_name" name } ::
          { time := 0, ev := first.ev } :: rest

/-- Embedding of `set_track_names` from src/transformers.py. -/
def set_track_names (midi : MidiFile) (name : String) : MidiFile :=
  { ticks_per_beat := midi.ticks_per_beat
    tracks := midi.tracks.map (setTrackNameTrack name) }

/-- Modelled aliasing effect of `set_track_names` on its argument.  In the
source, `new_track.append(msg)` stores references to the caller messages, and
on the no-track-name path the statement `first_msg.time = 0` writes through
such a shared reference: when the track has no track-name message, is
non-empty, and its first message has nonzero delta time, the first message of
the INPUT track is mutated to delta time 0.  This definition gives the value
of the argument track after the call returns. -/
def setTrackNamesInputAfter (tr : Track) : Track :=
  if tr.any (fun m => match m.ev with | .meta "track_name" _ => true | _ => false) then tr
  else
    match tr with
    | [] => tr
    | first :: rest =>
      if first.time = 0 then first :: rest
      else { time := 0, ev := first.ev } :: rest

/-! ### cap_note_lengths (src/transformers.py lines 74-153)

The source converts a track to absolute times (keeping the original index),
pairs note-ons with terminators through per-`(note, channel)` LIFO stacks in
three Python dicts, caps long pairs, rebuilds the events, sorts them by
`(absolute_time, original_index)` and re-derives delta times.  Python lists
push and pop at the END; we push and pop at the head of a `List`, the same
LIFO discipline.  Dicts are modelled as functions updated pointwise; the only
dict the source iterates over (`note_pairs`, in the capping pass) is updated
value-wise only, so the final value of each key is order-independent and the
function model is exact.  The inner `Option` of `pairs` mirrors a key that is
present with Python value `None` (set by a note-on push, overwriting any
earlier pair for the same `(note, channel, on_time)` key); when the rebuild
phase reads such a `None` it propagates it into a sort key, and the final
`list.sort` then raises `TypeError` comparing `None` with `int` (the adjusted
list always also holds int-keyed entries next to it); we model that raise as
an `Except.error`. -/

/-- An event tagged with its absolute time and original index. -/
structure AbsEv where
  abs : Int
  idx : Nat
  msg : Msg
deriving DecidableEq, Repr

/-- Conversion of a track to absolute-time events with original indices,
starting from running time `t` and index `i`. -/
def absEventsGo (t : Int) (i : Nat) : Track → List AbsEv
  | [] => []
  | m :: r => { abs := t + m.time, idx := i, msg := m } :: absEventsGo (t + m.time) (i + 1) r

/-- Absolute-time view of a track (`current_time` starts at 0). -/
def absEvents (tr : Track) : List AbsEv := absEventsGo 0 0 tr

/-- The three dictionaries of the pairing phase: `note_stacks`,
`note_pairs` (outer `Option` = key present, inner = Python value, `none`
standing for Python `None`), and `note_off_to_on`. -/
structure PairState where
  stks : Nat × Nat → List Int
  pairs : (Nat × Nat) × Int → Option (Option Int)
  offToOn : Int × Nat → Option Int

/-- Initial empty dictionaries. -/
def PairState.init : PairState :=
  { stks := fun _ => [], pairs := fun _ => none, offToOn := fun _ => none }

/-- Terminator handling in the pairing phase: pop the most recent unmatched
start for key `k` if any, record the pair and the terminator-to-start link;
with an empty stack the state is unchanged (orphan terminator). -/
def termStep (s : PairState) (k : Nat × Nat) (e : AbsEv) : PairState :=
  match s.stks k with
  | [] => s
  | tOn :: rest =>
    { stks := fun k2 => if k2 = k then rest else s.stks k2
      pairs := fun k2 => if k2 = (k, tOn) then some (some e.abs) else s.pairs k2
      offToOn := fun k2 => if k2 = (e.abs, e.idx) then some tOn else s.offToOn k2 }

/-- One step of the pairing scan: a positive-velocity note-on pushes its
absolute time and marks its `(note, channel, on_time)` pair key with Python
`None`; a terminator runs `termStep`; other events are ignored. -/
def pairStep (s : PairState) (e : AbsEv) : PairState :=
  match e.msg.ev with
  | .noteOn c n v =>
    if v > 0 then
      { stks := fun k2 => if k2 = (n, c) then e.abs :: s.stks (n, c) else s.stks k2
        pairs := fun k2 => if k2 = ((n, c), e.abs) then some none else s.pairs k2
        offToOn := s.offToOn }
    else termStep s (n, c) e
  | .noteOff c n _ => termStep s (n, c) e
  | .meta _ _ => s

/-- The pairing scan over a whole track. -/
def pairing (tr : Track) : PairState := (absEvents tr).foldl pairStep PairState.init

/-- Lookup in `note_pairs` after the capping pass: a matched pair whose
length strictly exceeds `maxT` has its stored end time replaced by
`on_time + maxT`; other entries are unchanged. -/
def cappedOff (s : PairState) (maxT : Int) (k : (Nat × Nat) × Int) : Option (Option Int) :=
  match s.pairs k with
  | some (some off) => if off - k.2 > maxT then some (some (k.2 + maxT)) else some (some off)
  | x => x

/-- Rebuild action for a terminator with note `n`, channel `c`: if it was
matched, read the possibly capped end time; a changed end time yields a fresh
`note_off` with velocity 0 at that time; equal time or no match keeps the
original event.  A Python-`None` end time is the `TypeError` raise. -/
def adjustTerm (s : PairState) (maxT : Int) (e : AbsEv) (c n : Nat) : Except String AbsEv :=
  match s.offToOn (e.abs, e.idx) with
  | some tOn =>
    match cappedOff s maxT ((n, c), tOn) with
    | some (some t) =>
      if t = e.abs then .ok e
      else .ok { abs := t, idx := e.idx, msg := { time := 0, ev := Ev.noteOff c n 0 } }
    | some none => .error "TypeError: comparison of NoneType and int"
    | none => .ok e
  | none => .ok e

/-- Rebuild action for one event (non-terminators pass through). -/
def adjustEvent (s : PairState) (maxT : Int) (e : AbsEv) : Except String AbsEv :=
  match e.msg.ev with
  | .noteOn c n v => if v = 0 then adjustTerm s maxT e c n else .ok e
  | .noteOff c n _ => adjustTerm s maxT e c n
  | .meta _ _ => .ok e

/-- Sort order of the rebuilt events: by absolute time, then by original
index.  Original indices are pairwise distinct, so this order has no ties and
any sorted rearrangement (in particular the stable Python `list.sort` and the
insertion sort used here) produces the same list. -/
def absLe (a b : AbsEv) : Prop := a.abs < b.abs ∨ (a.abs = b.abs ∧ a.idx ≤ b.idx)

instance : DecidableRel absLe := fun a b => by unfold absLe; infer_instance

instance : IsTotal AbsEv absLe :=
  ⟨by intro a b; unfold absLe; omega⟩

instance : IsTrans AbsEv absLe :=
  ⟨by intro a b c; unfold absLe; omega⟩

/-- Adjusted (rebuilt) events of one track, before sorting. -/
def adjustedEvents (maxT : Int) (tr : Track) : Except String (List AbsEv) :=
  (absEvents tr).mapM (adjustEvent (pairing tr) maxT)

/-- Adjusted events of one track, sorted by `(absolute_time, original_index)`. -/
def capSorted (maxT : Int) (tr : Track) : Except String (List AbsEv) :=
  Except.map (List.insertionSort absLe) (adjustedEvents maxT tr)

/-- Final delta-time reconstruction: each message is the original message
with `time` replaced by the difference to the previous absolute time. -/
def toDeltasGo (prev : Int) : List AbsEv → Track
  | [] => []
  | e :: r => { time := e.abs - prev, ev := e.msg.ev } :: toDeltasGo e.abs r

/-- Per-track body of `cap_note_lengths`. -/
def capTrack (maxT : Int) (tr : Track) : Except String Track :=
  Except.map (toDeltasGo 0) (capSorted maxT tr)

/-- Embedding of `cap_note_lengths` from src/transformers.py.  Only the
fraction "1/8" is supported; the cap is `ticks_per_beat // 2` ticks. -/
def cap_note_lengths (midi : MidiFile) (frac : String) : Except String MidiFile :=
  if frac ≠ "1/8" then .error ("Unsupported max_note fraction: " ++ frac)
  else do
    let ts ← midi.tracks.mapM (capTrack ((midi.ticks_per_beat / 2 : Nat) : Int))
    pure { ticks_per_beat := midi.ticks_per_beat, tracks := ts }

/-! ### Configuration (src/config_loader.py) -/

/-- Global transformation settings (`GlobalConfig` dataclass). -/
structure GlobalConfig where
  strip_to_notes : Bool
  force_channel_zero : Bool
  ignore_filename_contains : List String
  ignore_folders : List String
  strip_keep_meta : List String
deriving DecidableEq, Repr

/-- Bass transposition rule (`BassRule` dataclass). -/
structure BassRule where
  filename_contains : List String
  transpose_semitones : Int
  track_name : Option String
deriving DecidableEq, Repr

/-- Drums note length capping rule (`DrumsRule` dataclass). -/
structure DrumsRule where
  filename_contains : List String
  max_note_length : String
  track_name : Option String
deriving DecidableEq, Repr

/-- Wildcard rule (`WildcardRule` dataclass). -/
structure WildcardRule where
  transpose_semitones : Option Int
  track_name : Option String
  max_note_length : Option String
deriving DecidableEq, Repr

/-- Filename-based rules (`RulesConfig` dataclass). -/
structure RulesConfig where
  bass : BassRule
  drums : DrumsRule
  wildcard : Option WildcardRule
deriving DecidableEq, Repr

/-- Complete application configuration (`Config` dataclass). -/
structure Config where
  global_ : GlobalConfig
  rules : RulesConfig
deriving DecidableEq, Repr

/-! ### Rule pipeline (src/pipeline.py lines 15-54) -/

/-- ASCII lower-casing of one character, the effect of Python `str.lower`
on the ASCII filenames this model covers. -/
def lowerChar (c : Char) : Char :=
  if 65 ≤ c.toNat ∧ c.toNat ≤ 90 then Char.ofNat (c.toNat + 32) else c

/-- Portion of a character list after the last path separator, the POSIX
behaviour of `os.path.basename`. -/
def afterLastSlash (cs : List Char) : List Char :=
  cs.foldl (fun acc c => if c = '/' then [] else acc ++ [c]) []

/-- The `filename_lower` value of `process_midi`:
`os.path.basename(file_path).lower()` for ASCII POSIX paths. -/
def basenameLower (p : String) : String :=
  String.mk ((afterLastSlash p.data).map lowerChar)

/-- Test that `needle` starts the list `hay` (helper for substring search). -/
def startsWithList : List Char → List Char → Bool
  | [], _ => true
  | _ :: _, [] => false
  | a :: as, b :: bs => a == b && startsWithList as bs

/-- Contiguous-substring test, the Python `needle in hay` on strings. -/
def hasSubstring (needle hay : List Char) : Bool :=
  startsWithList needle hay ||
    (match hay with
     | [] => false
     | _ :: t => hasSubstring needle t)

/-- The match test of the pipeline:
`any(keyword in filename_lower for keyword in keywords)`. -/
def containsAnyKw (filenameLower : String) (keywords : List String) : Bool :=
  keywords.any (fun k => hasSubstring k.data filenameLower.data)

/-- Python truthiness of an optional string: `None` and `""` are falsy. -/
def strTruthy : Option String → Bool
  | none => false
  | some s => s ≠ ""

/-- Bass branch of the pipeline: transpose, then set the track name if the
configured name is truthy. -/
def bassBranch (cfg : Config) (midi : MidiFile) : MidiFile :=
  let t := transpose_notes midi cfg.rules.bass.transpose_semitones
  if strTruthy cfg.rules.bass.track_name then
    set_track_names t (cfg.rules.bass.track_name.getD "")
  else t

/-- Drums branch of the pipeline: cap note lengths (which can raise), then
set the track name if the configured name is truthy. -/
def drumsBranch (cfg : Config) (midi : MidiFile) : Except String MidiFile := do
  let c ← cap_note_lengths midi cfg.rules.drums.max_note_length
  pure (if strTruthy cfg.rules.drums.track_name then
          set_track_names c (cfg.rules.drums.track_name.getD "")
        else c)

/-- Wildcard branch of the pipeline: transpose if the offset is not `None`,
then set the track name if truthy, then cap if the length spec is truthy. -/
def wildcardBranch (w : WildcardRule) (midi : MidiFile) : Except String MidiFile := do
  let m1 := match w.transpose_semitones with
    | some s => transpose_notes midi s
    | none => midi
  let m2 := if strTruthy w.track_name then set_track_names m1 (w.track_name.getD "") else m1
  if strTruthy w.max_note_length then cap_note_lengths m2 (w.max_note_length.getD "")
  else pure m2

/-- Embedding of `process_midi` from src/pipeline.py.  Note that the bass
and drums tests are two INDEPENDENT `if` statements in the source: a filename
matching both rules runs the bass branch and then the drums branch.  The
wildcard branch runs only when neither matched and a wildcard rule exists. -/
def process_midi (midi : MidiFile) (file_path : String) (cfg : Config) :
    Except String MidiFile := do
  let fn := basenameLower file_path
  let bassMatch := containsAnyKw fn cfg.rules.bass.filename_contains
  let drumsMatch := containsAnyKw fn cfg.rules.drums.filename_contains
  let m1 := if cfg.global_.strip_to_notes then
      strip_to_notes midi cfg.global_.strip_keep_meta
    else midi
  let m2 := if bassMatch then bassBranch cfg m1 else m1
  let m3 ← if drumsMatch then drumsBranch cfg m2 else pure m2
  let m4 ← match cfg.rules.wildcard with
    | some w => if !bassMatch && !drumsMatch then wildcardBranch w m3 else pure m3
    | none => pure m3
  pure (if cfg.global_.force_channel_zero then force_channel_zero m4 else m4)

/-- Modelled from the spec: the section 4.2 pipeline in which "exactly one
filename-rule branch applies per file" and "bass and drums matches are
mutually exclusive ... first match wins; bass is checked first".  It differs
from `process_midi` only in the dispatch: the drums branch runs only when the
bass rule did NOT match.  Used to compare the spec dispatch with the code. -/
def process_midi_spec_firstMatch (midi : MidiFile) (file_path : String) (cfg : Config) :
    Except String MidiFile := do
  let fn := basenameLower file_path
  let bassMatch := containsAnyKw fn cfg.rules.bass.filename_contains
  let drumsMatch := containsAnyKw fn cfg.rules.drums.filename_contains
  let m1 := if cfg.global_.strip_to_notes then
      strip_to_notes midi cfg.global_.strip_keep_meta
    else midi
  let m3 ← if bassMatch then pure (bassBranch cfg m1)
    else if drumsMatch then drumsBranch cfg m1
    else pure m1
  let m4 ← match cfg.rules.wildcard with
    | some w => if !bassMatch && !drumsMatch then wildcardBranch w m3 else pure m3
    | none => pure m3
  pure (if cfg.global_.force_channel_zero then force_channel_zero m4 else m4)

/-! ### Watcher state (src/watcher.py lines 20-43 and helpers)

The `DebouncedHandler.processed_files` dict maps a path to the pair
`(hash, mtime)` recorded at the last processing or self-write.  Hashes are
`Option String` because `get_file_hash` returns `None` on a read failure;
modification times are modelled as `Rat` (the pure content of the float
comparison `current_mtime - prev_mtime < 2.0`).  `should_process` receives
the current hash and mtime that the source reads from the filesystem. -/

/-- One recorded entry of `processed_files`. -/
structure WatchEntry where
  hash : Option String
  mtime : Rat
deriving DecidableEq

/-- The `processed_files` dictionary. -/
abbrev ProcessedMap := String → Option WatchEntry

/-- Pointwise dictionary update. -/
def ProcessedMap.insert (m : ProcessedMap) (p : String) (e : WatchEntry) : ProcessedMap :=
  fun q => if q = p then some e else m q

/-- Embedding of `DebouncedHandler.should_process`: suppress (return false,
dictionary untouched) when the recorded hash equals the current one and the
mtime difference is under 2 seconds; otherwise record the current pair and
return true. -/
def should_process (path : String) (currentHash : Option String) (currentMtime : Rat)
    (m : ProcessedMap) : Bool × ProcessedMap :=
  match m path with
  | some prev =>
    if currentHash = prev.hash ∧ currentMtime - prev.mtime < 2 then (false, m)
    else (true, m.insert path ⟨currentHash, currentMtime⟩)
  | none => (true, m.insert path ⟨currentHash, currentMtime⟩)

/-- Embedding of `DebouncedHandler.mark_processed`: record the hash and
mtime read after a successful write. -/
def mark_processed (path : String) (h : Option String) (t : Rat)
    (m : ProcessedMap) : ProcessedMap :=
  m.insert path ⟨h, t⟩

/-- Decision of `DebouncedHandler._process_file` after the debounce delay:
the callback (the pipeline) runs iff the file still exists and
`should_process` returns true. -/
def pipelineInvoked (stillExists : Bool) (path : String) (currentHash : Option String)
    (currentMtime : Rat) (m : ProcessedMap) : Bool :=
  stillExists && (should_process path currentHash currentMtime m).1

/-! ### Auxiliary predicates and views used by the verification -/

/-- Absolute position view of a track from a base time: each retained pair is
the running sum of delta times up to the event together with the event. -/
def absPosGo (base : Int) : Track → List (Int × Ev)
  | [] => []
  | m :: r => (base + m.time, m.ev) :: absPosGo (base + m.time) r

/-- Absolute positions of the events of a track, reconstructed by summing
delta times. -/
def absPos (tr : Track) : List (Int × Ev) := absPosGo 0 tr

/-- Distinctness assumption on the absolute-time events of a track: no two
positive-velocity note-ons with the same `(note, channel)` key share an
absolute start time (such inputs overwrite the `note_pairs` dictionary key in
the source and break the pairing). -/
def DistinctOn (e1 e2 : AbsEv) : Prop :=
  e1.msg.ev.isOnPos = true → e2.msg.ev.isOnPos = true →
    e1.msg.ev.key = e2.msg.ev.key → e1.abs ≠ e2.abs

/-- Distinctness is decidable, so concrete witnesses can be checked. -/
instance : DecidableRel DistinctOn := fun a b => by unfold DistinctOn; infer_instance

/-- Some processed event of `P` is a positive note-on with key `k` starting
at absolute time `t`. -/
def OnIn (P : List AbsEv) (k : Nat × Nat) (t : Int) : Prop :=
  ∃ e ∈ P, e.msg.ev.isOnPos = true ∧ e.msg.ev.key = k ∧ e.abs = t

/-- Invariant of the pairing scan after processing the prefix `P`:
stack entries are start times of positive note-ons of `P` and are distinct
per key; every recorded terminator link of an event of `P` points to a pair
entry that still stores that terminator's absolute end time, to a start that
really was pushed, and to a start no longer on the stack; and every link key
uses the index of some processed event. -/
def PairInv (P : List AbsEv) (s : PairState) : Prop :=
  (∀ k t, t ∈ s.stks k → OnIn P k t) ∧
  (∀ k, (s.stks k).Nodup) ∧
  (∀ e ∈ P, e.msg.ev.isTerm = true → ∀ t, s.offToOn (e.abs, e.idx) = some t →
    s.pairs (e.msg.ev.key, t) = some (some e.abs) ∧ OnIn P e.msg.ev.key t ∧
      t ∉ s.stks e.msg.ev.key) ∧
  (∀ a i t, s.offToOn (a, i) = some t → ∃ e ∈ P, e.idx = i)

/-- Numeric invariant of the pairing scan used for delta-time bounds: all
stack entries are non-negative, and every completed pair stores a
non-negative end time under a non-negative start-time key. -/
def PairNN (s : PairState) : Prop :=
  (∀ k t, t ∈ s.stks k → 0 ≤ t) ∧
  (∀ k v, s.pairs k = some (some v) → 0 ≤ v ∧ 0 ≤ k.2)

/-! ### Concrete fixtures for counterexamples and witnesses -/

/-- Track with two positive note-ons sharing `(note, channel)` and the same
absolute start time 0, then two terminators at 100 and 200. -/
def exT2 : Track :=
  [⟨0, .noteOn 0 60 64⟩, ⟨0, .noteOn 0 60 64⟩,
   ⟨100, .noteOff 0 60 64⟩, ⟨100, .noteOff 0 60 64⟩]

/-- Track whose long note is terminated by a `note_on` with velocity 0. -/
def exT4 : Track := [⟨0, .noteOn 0 60 64⟩, ⟨480, .noteOn 0 60 0⟩]

/-- File in which a positive note-on re-pushes the `(note, channel, time)`
key of an already matched pair (zero-length note at time 5, then the same
note restarted at time 5). -/
def exCrash : MidiFile :=
  ⟨480, [[⟨5, .noteOn 0 60 64⟩, ⟨0, .noteOn 0 60 0⟩, ⟨0, .noteOn 0 60 64⟩]]⟩

/-- File with `ticks_per_beat = 480`, one note lasting 480 ticks and one
lasting 100 ticks (the end-to-end drums scenario of the spec). -/
def exD480 : MidiFile :=
  ⟨480, [[⟨0, .noteOn 0 36 100⟩, ⟨480, .noteOff 0 36 0⟩,
          ⟨0, .noteOn 0 38 100⟩, ⟨100, .noteOff 0 38 0⟩]]⟩

/-- Output of `cap_note_lengths exD480 "1/8"`: the 480-tick note is cut to
240 ticks, the 100-tick note is unchanged. -/
def exD480Capped : MidiFile :=
  ⟨480, [[⟨0, .noteOn 0 36 100⟩, ⟨240, .noteOff 0 36 0⟩,
          ⟨240, .noteOn 0 38 100⟩, ⟨100, .noteOff 0 38 0⟩]]⟩

/-- Configuration whose bass rule matches "bass", drums rule matches "drum",
with no stripping, no channel forcing, no track names and no wildcard. -/
def exCfgBoth : Config :=
  ⟨⟨false, false, [], [], []⟩,
   ⟨⟨["bass"], 12, none⟩, ⟨["drum"], "1/8", none⟩, none⟩⟩

/-- Single-note single-track file used by the pipeline counterexamples. -/
def exMidiNote : MidiFile := ⟨480, [[⟨0, .noteOn 0 60 64⟩, ⟨480, .noteOff 0 60 64⟩]]⟩

/-- Configuration like `exCfgBoth` but transposing by -12. -/
def exCfgDown : Config :=
  ⟨⟨false, false, [], [], []⟩,
   ⟨⟨["bass"], -12, none⟩, ⟨["drum"], "1/8", none⟩, none⟩⟩

/-- Configuration like `exCfgBoth` but transposing by 0. -/
def exCfgZero : Config :=
  ⟨⟨false, false, [], [], []⟩,
   ⟨⟨["bass"], 0, none⟩, ⟨["drum"], "1/8", none⟩, none⟩⟩

/-- Single-note file for the idempotence counterexample. -/
def exMidi3 : MidiFile := ⟨480, [[⟨0, .noteOn 0 60 64⟩]]⟩

/-! ### General helper lemmas -/

/-- A successful `mapM` over `Except` relates input and output elementwise. -/
theorem mapM_ok_forall₂ {α β : Type} (f : α → Except String β) :
    ∀ {l : List α} {l2 : List β}, l.mapM f = .ok l2 →
      List.Forall₂ (fun a b => f a = .ok b) l l2 := by
  intro l
  induction l with
  | nil =>
    intro l2 h
    simp only [List.mapM_nil, pure, Except.pure, Except.ok.injEq] at h
    subst h
    exact List.Forall₂.nil
  | cons a r ih =>
    intro l2 h
    rw [List.mapM_cons] at h
    cases hfa : f a with
    | error e => rw [hfa] at h; exact Except.noConfusion h
    | ok b =>
      simp only [hfa, bind, Except.bind] at h
      cases hr : r.mapM f with
      | error e => rw [hr] at h; exact Except.noConfusion h
      | ok bs =>
        simp only [hr, pure, Except.pure, Except.ok.injEq] at h
        subst h
        exact List.Forall₂.cons hfa (ih hr)

/-- Conversely, elementwise success makes the whole `mapM` succeed. -/
theorem forall₂_ok_mapM {α β : Type} (f : α → Except String β) :
    ∀ (l : List α), (∀ a ∈ l, ∃ b, f a = .ok b) →
      ∃ l2, l.mapM f = .ok l2 ∧ List.Forall₂ (fun a b => f a = .ok b) l l2 := by
  intro l
  induction l with
  | nil => exact fun _ => ⟨[], rfl, List.Forall₂.nil⟩
  | cons a r ih =>
    intro h
    obtain ⟨b, hb⟩ := h a (by simp)
    obtain ⟨bs, hbs, hrel⟩ := ih (fun x hx => h x (by simp [hx]))
    refine ⟨b :: bs, ?_, List.Forall₂.cons hb hrel⟩
    rw [List.mapM_cons, hb]
    simp only [bind, Except.bind, hbs, pure, Except.pure]

/-- Elementwise access to a `Forall₂`, from the left. -/
theorem forall₂_mem_left {α β : Type} {R : α → β → Prop} :
    ∀ {l : List α} {l2 : List β}, List.Forall₂ R l l2 → ∀ a ∈ l, ∃ b ∈ l2, R a b := by
  intro l l2 h
  induction h with
  | nil => simp
  | cons hab _ ih =>
    intro x hx
    rcases hx with _ | hx
    · exact ⟨_, by simp, hab⟩
    · obtain ⟨b, hb, hR⟩ := ih _ (by assumption)
      exact ⟨b, by simp [hb], hR⟩

/-- Elementwise access to a `Forall₂`, from the right. -/
theorem forall₂_mem_right {α β : Type} {R : α → β → Prop} :
    ∀ {l : List α} {l2 : List β}, List.Forall₂ R l l2 → ∀ b ∈ l2, ∃ a ∈ l, R a b := by
  intro l l2 h
  induction h with
  | nil => simp
  | cons hab _ ih =>
    intro x hx
    rcases hx with _ | hx
    · exact ⟨_, by simp, hab⟩
    · obtain ⟨a, ha, hR⟩ := ih _ (by assumption)
      exact ⟨a, by simp [ha], hR⟩

/-! ### Claim C8: transpose_notes -/

/-- Claim C8: for every input file and integer semitone offset,
`transpose_notes` replaces the note of every note_on and note_off event with
`clamp(note + semitones, 0, 127)` and leaves the channel, velocity and delta
time of note events, and all non-note events, unchanged, for all tracks. -/
theorem transpose_notes_clamps_notes (midi : MidiFile) (s : Int) :
    (transpose_notes midi s).ticks_per_beat = midi.ticks_per_beat ∧
    List.Forall₂ (List.Forall₂ (fun m m2 =>
      m2.time = m.time ∧
      (∀ c n v, m.ev = Ev.noteOn c n v →
        m2.ev = Ev.noteOn c ((max 0 (min 127 ((n : Int) + s))).toNat) v) ∧
      (∀ c n v, m.ev = Ev.noteOff c n v →
        m2.ev = Ev.noteOff c ((max 0 (min 127 ((n : Int) + s))).toNat) v) ∧
      (∀ t p, m.ev = Ev.meta t p → m2.ev = Ev.meta t p)))
      midi.tracks (transpose_notes midi s).tracks := by
  refine ⟨rfl, ?_⟩
  simp only [transpose_notes, List.forall₂_map_right_iff]
  rw [List.forall₂_same]
  intro tr _
  rw [List.forall₂_same]
  intro m _
  exact ⟨rfl, fun a b c h => by simp [transposeEv, clampNote, h],
    fun a b c h => by simp [transposeEv, clampNote, h],
    fun a b h => by simp [transposeEv, h]⟩

/-! ### Claim C7: strip_to_notes preserves absolute positions -/

/-- Per-track accounting of `strip_to_notes`: the reconstructed absolute
positions of a stripped track are exactly the positions of the retained
events of the input. -/
theorem stripGo_absPosGo (keepMeta : List String) :
    ∀ (tr : Track) (base acc : Int),
      absPosGo base (stripGo keepMeta acc tr) =
        (absPosGo (base + acc) tr).filter (fun p => keepEvent keepMeta p.2) := by
  intro tr
  induction tr with
  | nil => intro base acc; simp [stripGo, absPosGo]
  | cons m r ih =>
    intro base acc
    by_cases h : keepEvent keepMeta m.ev
    · simp only [stripGo, if_pos h, absPosGo, ih, add_zero, List.filter_cons]
      simp [h, add_assoc]
    · simp only [stripGo, if_neg h, absPosGo, ih, List.filter_cons]
      simp [h, add_assoc]

/-- Claim C7: for every input file and every kept-meta set, every event
retained by `strip_to_notes` (note events, end-of-track, and events whose
subtype is listed) has the same absolute tick position in the output as in
the input, for all tracks: positions are reconstructed by summing delta
times and the output positions are exactly the filtered input positions. -/
theorem strip_to_notes_preserves_abs (midi : MidiFile) (keepMeta : List String) :
    (strip_to_notes midi keepMeta).tracks.map absPos =
      midi.tracks.map (fun tr => (absPos tr).filter (fun p => keepEvent keepMeta p.2)) := by
  simp only [strip_to_notes, List.map_map]
  refine List.map_congr_left ?_
  intro tr _
  show absPos (stripGo keepMeta 0 tr) = _
  unfold absPos
  rw [stripGo_absPosGo keepMeta tr 0 0]
  norm_num

/-! ### Claim C5: self-write suppression in the watcher -/

/-- Claim C5: after a successful commit to a path is recorded via
`mark_processed`, a change event for that path whose current fingerprint
equals the recorded one and whose modification time is within the 2-second
recency window is suppressed (`should_process` returns false, the map is
unchanged, and the debounce handler does not invoke the pipeline); an event
whose fingerprint differs is processed and the recorded pair is updated to
the current values. -/
theorem should_process_after_mark (p : String) (h : Option String) (t : Rat)
    (m : ProcessedMap) (h2 : Option String) (t2 : Rat) :
    (h2 = h → t2 - t < 2 →
      should_process p h2 t2 (mark_processed p h t m) = (false, mark_processed p h t m) ∧
      pipelineInvoked true p h2 t2 (mark_processed p h t m) = false) ∧
    (h2 ≠ h →
      should_process p h2 t2 (mark_processed p h t m) =
        (true, (mark_processed p h t m).insert p ⟨h2, t2⟩)) := by
  constructor
  · intro he ht
    have hs : should_process p h2 t2 (mark_processed p h t m) =
        (false, mark_processed p h t m) := by
      simp [should_process, mark_processed, ProcessedMap.insert, he, ht]
    exact ⟨hs, by simp [pipelineInvoked, hs]⟩
  · intro hne
    simp [should_process, mark_processed, ProcessedMap.insert, hne]

/-- Witness for C5 at a concrete path, fingerprints and times. -/
theorem should_process_after_mark_witness :
    ((some "a" : Option String) = some "a" ∧ (1 : Rat) - 0 < 2 ∧
      should_process "p" (some "a") 1 (mark_processed "p" (some "a") 0 (fun _ => none)) =
        (false, mark_processed "p" (some "a") 0 (fun _ => none))) ∧
    ((some "b" : Option String) ≠ some "a" ∧
      should_process "p" (some "b") 1 (mark_processed "p" (some "a") 0 (fun _ => none)) =
        (true, (mark_processed "p" (some "a") 0 (fun _ => none)).insert "p" ⟨some "b", 1⟩)) :=
  ⟨⟨rfl, by norm_num,
    ((should_process_after_mark "p" (some "a") 0 (fun _ => none) (some "a") 1).1
      rfl (by norm_num)).1⟩,
   ⟨by decide,
    (should_process_after_mark "p" (some "a") 0 (fun _ => none) (some "b") 1).2 (by decide)⟩⟩

/-! ### Claim C6: value semantics of the transform operators -/

/-- Claim C6 (code bug): the spec promises that no operator mutates its
input, but `set_track_names` does.  On a track with no track-name message
whose first message has delta time 10, the input track after the call has
that delta time overwritten with 0 (`first_msg.time = 0` writes through the
reference shared between `new_track` and the caller's track). -/
theorem set_track_names_mutates_input :
    setTrackNamesInputAfter [⟨10, Ev.noteOn 0 60 64⟩] ≠ [⟨10, Ev.noteOn 0 60 64⟩] ∧
    setTrackNamesInputAfter [⟨10, Ev.noteOn 0 60 64⟩] = [⟨0, Ev.noteOn 0 60 64⟩] := by
  constructor
  · decide
  · decide

/-! ### Claim C1: bass and drums dispatch -/

/-- Counterexample to claim C1: on the filename "bassdrum.mid", which
matches both the bass and the drums substring sets of `exCfgBoth`,
`process_midi` does NOT run only the bass branch: its output has the 480-tick
note capped to 240 ticks by the drums branch, and differs from the output of
the spec's first-match-wins pipeline, which leaves the note length alone. -/
theorem process_midi_first_match_counterexample :
    containsAnyKw (basenameLower "bassdrum.mid") exCfgBoth.rules.bass.filename_contains = true ∧
    containsAnyKw (basenameLower "bassdrum.mid") exCfgBoth.rules.drums.filename_contains = true ∧
    process_midi exMidiNote "bassdrum.mid" exCfgBoth =
      .ok ⟨480, [[⟨0, .noteOn 0 72 64⟩, ⟨240, .noteOff 0 72 0⟩]]⟩ ∧
    process_midi_spec_firstMatch exMidiNote "bassdrum.mid" exCfgBoth =
      .ok ⟨480, [[⟨0, .noteOn 0 72 64⟩, ⟨480, .noteOff 0 72 64⟩]]⟩ ∧
    process_midi exMidiNote "bassdrum.mid" exCfgBoth ≠
      process_midi_spec_firstMatch exMidiNote "bassdrum.mid" exCfgBoth := by
  refine ⟨rfl, rfl, rfl, rfl, ?_⟩
  intro h
  rw [show process_midi exMidiNote "bassdrum.mid" exCfgBoth =
      .ok ⟨480, [[⟨0, .noteOn 0 72 64⟩, ⟨240, .noteOff 0 72 0⟩]]⟩ from rfl,
    show process_midi_spec_firstMatch exMidiNote "bassdrum.mid" exCfgBoth =
      .ok ⟨480, [[⟨0, .noteOn 0 72 64⟩, ⟨480, .noteOff 0 72 64⟩]]⟩ from rfl] at h
  simp at h

/-- Claim C1 amended: when a filename matches both the bass and the drums
substring sets, `process_midi` runs BOTH branches, the bass branch first and
then the drums branch, and skips the wildcard branch; dispatch is not
first-match-wins. -/
theorem process_midi_runs_both_branches (midi : MidiFile) (path : String) (cfg : Config)
    (hb : containsAnyKw (basenameLower path) cfg.rules.bass.filename_contains = true)
    (hd : containsAnyKw (basenameLower path) cfg.rules.drums.filename_contains = true) :
    process_midi midi path cfg = (do
      let m1 := if cfg.global_.strip_to_notes then
          strip_to_notes midi cfg.global_.strip_keep_meta
        else midi
      let m3 ← drumsBranch cfg (bassBranch cfg m1)
      pure (if cfg.global_.force_channel_zero then force_channel_zero m3 else m3)) := by
  simp only [process_midi, hb, hd, if_true, Bool.not_true, Bool.false_and, Bool.and_self]
  cases cfg.rules.wildcard with
  | none => simp
  | some w => simp

/-- Witness for the amended C1 at a concrete file, path and config. -/
theorem process_midi_runs_both_branches_witness :
    containsAnyKw (basenameLower "bassdrum.mid") exCfgBoth.rules.bass.filename_contains = true ∧
    containsAnyKw (basenameLower "bassdrum.mid") exCfgBoth.rules.drums.filename_contains = true ∧
    process_midi exMidiNote "bassdrum.mid" exCfgBoth = (do
      let m1 := if exCfgBoth.global_.strip_to_notes then
          strip_to_notes exMidiNote exCfgBoth.global_.strip_keep_meta
        else exMidiNote
      let m3 ← drumsBranch exCfgBoth (bassBranch exCfgBoth m1)
      pure (if exCfgBoth.global_.force_channel_zero then force_channel_zero m3 else m3)) :=
  ⟨by decide, by decide,
    process_midi_runs_both_branches exMidiNote "bassdrum.mid" exCfgBoth (by decide) (by decide)⟩

/-! ### Claim C3: idempotence of the pipeline -/

/-- Counterexample to claim C3: with the bass rule matching "bass.mid" and
transpose -12, applying `process_midi` twice transposes twice (note 60 goes
to 48, then to 36), so the second application does not reproduce the first. -/
theorem process_midi_twice_differs :
    process_midi exMidi3 "bass.mid" exCfgDown = .ok ⟨480, [[⟨0, .noteOn 0 48 64⟩]]⟩ ∧
    process_midi ⟨480, [[⟨0, .noteOn 0 48 64⟩]]⟩ "bass.mid" exCfgDown =
      .ok ⟨480, [[⟨0, .noteOn 0 36 64⟩]]⟩ ∧
    (⟨480, [[⟨0, Ev.noteOn 0 36 64⟩]]⟩ : MidiFile) ≠ ⟨480, [[⟨0, Ev.noteOn 0 48 64⟩]]⟩ :=
  ⟨rfl, rfl, by decide⟩

/-- Clamping twice is the same as clamping once. -/
theorem transposeEv_zero_idem (e : Ev) : transposeEv 0 (transposeEv 0 e) = transposeEv 0 e := by
  cases e <;> simp [transposeEv, clampNote]

/-- Transposing by 0 is idempotent (it only clamps, and clamping is
idempotent). -/
theorem transpose_notes_zero_idem (midi : MidiFile) :
    transpose_notes (transpose_notes midi 0) 0 = transpose_notes midi 0 := by
  simp only [transpose_notes, List.map_map, MidiFile.mk.injEq, true_and]
  refine List.map_congr_left ?_
  intro tr _
  simp only [Function.comp_apply, List.map_map]
  refine List.map_congr_left ?_
  intro m _
  simp [Function.comp_apply, transposeEv_zero_idem]

/-- Claim C3 amended: `process_midi` applied twice equals applying it once
when the configuration makes every applied operator idempotent: stripping
and channel-forcing disabled, the filename matching the bass rule but not
the drums rule, bass transpose 0 and no bass track name.  In general the
pipeline is NOT idempotent (see the counterexample): a nonzero transpose is
applied again by the second run. -/
theorem process_midi_idempotent_when_no_op (midi : MidiFile) (path : String) (cfg : Config)
    (hstrip : cfg.global_.strip_to_notes = false)
    (hforce : cfg.global_.force_channel_zero = false)
    (hb : containsAnyKw (basenameLower path) cfg.rules.bass.filename_contains = true)
    (hd : containsAnyKw (basenameLower path) cfg.rules.drums.filename_contains = false)
    (hs : cfg.rules.bass.transpose_semitones = 0)
    (hn : cfg.rules.bass.track_name = none) :
    ∃ m1, process_midi midi path cfg = .ok m1 ∧ process_midi m1 path cfg = .ok m1 := by
  have hrun : ∀ x : MidiFile, process_midi x path cfg = .ok (transpose_notes x 0) := by
    intro x
    simp only [process_midi, hstrip, hforce, hb, hd, hs, hn, if_true, if_false,
      Bool.not_true, Bool.not_false, Bool.false_and, Bool.and_false, Bool.and_self,
      bassBranch, strTruthy]
    cases cfg.rules.wildcard with
    | none => simp [pure, Except.pure, bind, Except.bind]
    | some w => simp [pure, Except.pure, bind, Except.bind]
  exact ⟨transpose_notes midi 0, hrun midi, by rw [hrun, transpose_notes_zero_idem]⟩

/-- Witness for the amended C3 at a concrete file, path and config. -/
theorem process_midi_idempotent_when_no_op_witness :
    exCfgZero.global_.strip_to_notes = false ∧
    exCfgZero.global_.force_channel_zero = false ∧
    containsAnyKw (basenameLower "bass.mid") exCfgZero.rules.bass.filename_contains = true ∧
    containsAnyKw (basenameLower "bass.mid") exCfgZero.rules.drums.filename_contains = false ∧
    exCfgZero.rules.bass.transpose_semitones = 0 ∧
    exCfgZero.rules.bass.track_name = none ∧
    ∃ m1, process_midi exMidi3 "bass.mid" exCfgZero = .ok m1 ∧
      process_midi m1 "bass.mid" exCfgZero = .ok m1 :=
  ⟨rfl, rfl, by decide, by decide, rfl, rfl,
    process_midi_idempotent_when_no_op exMidi3 "bass.mid" exCfgZero
      rfl rfl (by decide) (by decide) rfl rfl⟩

/-! ### Claim C9: error behaviour of cap_note_lengths -/

/-- Counterexample to claim C9: `cap_note_lengths` can raise even when the
max-note-length spec IS "1/8".  On `exCrash` (a zero-length note at time 5
immediately restarted, so a positive note-on re-pushes the already matched
`(note, channel, 5)` key of `note_pairs`), the rebuild reads the Python
value `None` as the end time and the sort raises `TypeError`; the claimed
"if and only if" direction fails. -/
theorem cap_note_lengths_raises_on_supported_fraction :
    cap_note_lengths exCrash "1/8" = .error "TypeError: comparison of NoneType and int" := rfl

/-- Claim C9 amended: `cap_note_lengths` raises the unsupported-fraction
`ValueError` whenever the spec differs from "1/8", before reading any track;
with "1/8" the cap is `ticks_per_beat // 2` ticks (240 at 480 tpb), so a
480-tick note is shortened to exactly 240 ticks and a 100-tick note is
unchanged — but even with "1/8" the function can still raise a `TypeError`
on degenerate tracks in which a positive note-on re-pushes the
`(note, channel, start)` key of an already matched pair. -/
theorem cap_note_lengths_error_spec (midi : MidiFile) (frac : String) :
    (frac ≠ "1/8" →
      cap_note_lengths midi frac = .error ("Unsupported max_note fraction: " ++ frac)) ∧
    cap_note_lengths exD480 "1/8" = .ok exD480Capped ∧
    cap_note_lengths exCrash "1/8" = .error "TypeError: comparison of NoneType and int" := by
  refine ⟨?_, rfl, rfl⟩
  intro h
  simp [cap_note_lengths, h]

/-- Witness for the amended C9 with the unsupported fraction "1/4". -/
theorem cap_note_lengths_error_spec_witness :
    ("1/4" : String) ≠ "1/8" ∧
    cap_note_lengths exD480 "1/4" = .error ("Unsupported max_note fraction: " ++ "1/4") ∧
    cap_note_lengths exD480 "1/8" = .ok exD480Capped :=
  ⟨by decide, (cap_note_lengths_error_spec exD480 "1/4").1 (by decide),
    (cap_note_lengths_error_spec exD480 "1/4").2.1⟩

/-! ### Claim C4: event identity and payload under cap_note_lengths -/

/-- Counterexample to claim C4: the long note of `exT4` is terminated by a
`note_on` with velocity 0, but the shortened terminator in the output of
`cap_note_lengths` is a `note_off` (a fresh message built by the rebuild),
so the adjusted terminator does NOT keep its original event type. -/
theorem cap_terminator_identity_counterexample :
    cap_note_lengths ⟨480, [exT4]⟩ "1/8" =
      .ok ⟨480, [[⟨0, .noteOn 0 60 64⟩, ⟨240, .noteOff 0 60 0⟩]]⟩ ∧
    exT4 = [⟨0, .noteOn 0 60 64⟩, ⟨480, .noteOn 0 60 0⟩] ∧
    Ev.noteOff 0 60 0 ≠ Ev.noteOn 0 60 0 :=
  ⟨rfl, rfl, by decide⟩

/-- Claim C4 amended: in the rebuilt event list of `cap_note_lengths`,
every event either is the original event unchanged (same absolute time,
same message), or is an adjusted terminator, which is REPLACED by a fresh
`note_off` with velocity 0 and delta field 0 at the new absolute time,
keeping only the channel and note of the original terminator (an adjusted
`note_on`-with-velocity-0 becomes a `note_off`, and an adjusted `note_off`
loses its original velocity). -/
theorem cap_adjusted_event_identity (tr : Track) (maxT : Int) (adj : List AbsEv)
    (h : adjustedEvents maxT tr = .ok adj) :
    ∀ e2 ∈ adj, ∃ e ∈ absEvents tr, e2.idx = e.idx ∧
      (e2 = e ∨ ∃ c n, (e.msg.ev = Ev.noteOn c n 0 ∨ ∃ v, e.msg.ev = Ev.noteOff c n v) ∧
        e2.msg = { time := 0, ev := Ev.noteOff c n 0 }) := by
  have hrel := mapM_ok_forall₂ (adjustEvent (pairing tr) maxT) h
  intro e2 he2
  obtain ⟨e, he, hf⟩ := forall₂_mem_right hrel e2 he2
  refine ⟨e, he, ?_⟩
  unfold adjustEvent at hf
  split at hf
  case _ c n v heq =>
    by_cases hv : v = 0
    · rw [if_pos hv] at hf
      subst hv
      unfold adjustTerm at hf
      split at hf
      case _ tOn hOn =>
        split at hf
        case _ t hcap =>
          split at hf
          · injection hf with h2; subst h2; exact ⟨rfl, Or.inl rfl⟩
          · injection hf with h2
            subst h2
            exact ⟨rfl, Or.inr ⟨c, n, Or.inl heq, rfl⟩⟩
        case _ hcap => exact Except.noConfusion hf
        case _ hcap => injection hf with h2; subst h2; exact ⟨rfl, Or.inl rfl⟩
      case _ hOn => injection hf with h2; subst h2; exact ⟨rfl, Or.inl rfl⟩
    · rw [if_neg hv] at hf
      injection hf with h2; subst h2; exact ⟨rfl, Or.inl rfl⟩
  case _ c n v heq =>
    unfold adjustTerm at hf
    split at hf
    case _ tOn hOn =>
      split at hf
      case _ t hcap =>
        split at hf
        · injection hf with h2; subst h2; exact ⟨rfl, Or.inl rfl⟩
        · injection hf with h2
          subst h2
          exact ⟨rfl, Or.inr ⟨c, n, Or.inr ⟨v, heq⟩, rfl⟩⟩
      case _ hcap => exact Except.noConfusion hf
      case _ hcap => injection hf with h2; subst h2; exact ⟨rfl, Or.inl rfl⟩
    case _ hOn => injection hf with h2; subst h2; exact ⟨rfl, Or.inl rfl⟩
  case _ st pl heq =>
    injection hf with h2; subst h2; exact ⟨rfl, Or.inl rfl⟩

/-- Witness for the amended C4 at the concrete track `exT4`. -/
theorem cap_adjusted_event_identity_witness :
    adjustedEvents 240 exT4 = .ok
      [⟨0, 0, ⟨0, .noteOn 0 60 64⟩⟩, ⟨240, 1, ⟨0, .noteOff 0 60 0⟩⟩] ∧
    (∀ e2 ∈ [(⟨0, 0, ⟨0, .noteOn 0 60 64⟩⟩ : AbsEv), ⟨240, 1, ⟨0, .noteOff 0 60 0⟩⟩],
      ∃ e ∈ absEvents exT4, e2.idx = e.idx ∧
        (e2 = e ∨ ∃ c n, (e.msg.ev = Ev.noteOn c n 0 ∨ ∃ v, e.msg.ev = Ev.noteOff c n v) ∧
          e2.msg = { time := 0, ev := Ev.noteOff c n 0 })) :=
  ⟨rfl, cap_adjusted_event_identity exT4 240 _ rfl⟩

/-! ### Claim C10: delta-time invariant of cap_note_lengths -/

/-- With non-negative delta times, all absolute times are at least the
starting time. -/
theorem absEventsGo_le_abs :
    ∀ (tr : Track) (t0 : Int) (i : Nat), (∀ m ∈ tr, 0 ≤ m.time) →
      ∀ e ∈ absEventsGo t0 i tr, t0 ≤ e.abs := by
  intro tr
  induction tr with
  | nil => intro t0 i _ e he; cases he
  | cons m r ih =>
    intro t0 i hnn e he
    have hm : 0 ≤ m.time := hnn m (by simp)
    rcases he with _ | he
    · simpa using hm
    · have := ih (t0 + m.time) (i + 1) (fun x hx => hnn x (by simp [hx])) e (by assumption)
      omega

/-- One pairing step preserves the numeric invariant, given a non-negative
event time. -/
theorem pairNN_step (s : PairState) (e : AbsEv) (habs : 0 ≤ e.abs)
    (h : PairNN s) : PairNN (pairStep s e) := by
  obtain ⟨hstk, hpair⟩ := h
  have hterm : ∀ k2 : Nat × Nat, PairNN (termStep s k2 e) := by
    intro k2
    unfold termStep
    cases hs : s.stks k2 with
    | nil => exact ⟨hstk, hpair⟩
    | cons tOn rest =>
      have htOn : 0 ≤ tOn := hstk k2 tOn (by simp [hs])
      constructor
      · intro k t ht
        dsimp only at ht
        by_cases hk : k = k2
        · rw [if_pos hk] at ht
          refine hstk k2 t ?_
          rw [hs]
          exact List.mem_cons_of_mem _ ht
        · rw [if_neg hk] at ht
          exact hstk k t ht
      · intro k v hv
        dsimp only at hv
        by_cases hk : k = (k2, tOn)
        · rw [if_pos hk] at hv
          injection hv with h3
          injection h3 with h4
          exact ⟨h4 ▸ habs, hk ▸ htOn⟩
        · rw [if_neg hk] at hv
          exact hpair k v hv
  unfold pairStep
  cases hev : e.msg.ev with
  | noteOn c n v =>
    by_cases hv : v > 0
    · simp only [if_pos hv]
      constructor
      · intro k t ht
        dsimp only at ht
        by_cases hk : k = (n, c)
        · rw [if_pos hk] at ht
          rcases ht with _ | ht
          · assumption
          · exact hstk (n, c) t (by assumption)
        · rw [if_neg hk] at ht
          exact hstk k t ht
      · intro k v2 hv2
        dsimp only at hv2
        by_cases hk : k = ((n, c), e.abs)
        · rw [if_pos hk] at hv2
          exact absurd hv2 (by simp)
        · rw [if_neg hk] at hv2
          exact hpair k v2 hv2
    · simp only [if_neg hv]
      exact hterm (n, c)
  | noteOff c n v => exact hterm (n, c)
  | meta a b => exact ⟨hstk, hpair⟩

/-- The numeric invariant holds after scanning any list of events with
non-negative absolute times. -/
theorem pairNN_foldl :
    ∀ (l : List AbsEv) (s : PairState), (∀ e ∈ l, 0 ≤ e.abs) → PairNN s →
      PairNN (l.foldl pairStep s) := by
  intro l
  induction l with
  | nil => intro s _ h; exact h
  | cons e r ih =>
    intro s hl h
    exact ih (pairStep s e) (fun x hx => hl x (by simp [hx]))
      (pairNN_step s e (hl e (by simp)) h)

/-- Every event produced by the rebuild has a non-negative absolute time,
given the numeric invariant, a non-negative input time and a non-negative
cap. -/
theorem adjustEvent_nonneg (s : PairState) (maxT : Int) (e e2 : AbsEv)
    (hNN : PairNN s) (hmax : 0 ≤ maxT) (habs : 0 ≤ e.abs)
    (h : adjustEvent s maxT e = .ok e2) : 0 ≤ e2.abs := by
  unfold adjustEvent at h
  have hterm : ∀ c n : Nat, adjustTerm s maxT e c n = .ok e2 → 0 ≤ e2.abs := by
    intro c n hf
    unfold adjustTerm at hf
    split at hf
    case _ tOn hOn =>
      split at hf
      case _ t hcap =>
        have ht : 0 ≤ t := by
          unfold cappedOff at hcap
          split at hcap
          case _ off hoff =>
            obtain ⟨hoffnn, htOnnn⟩ := hNN.2 _ _ hoff
            split at hcap
            · injection hcap with h3
              injection h3 with h4
              omega
            · injection hcap with h3
              injection h3 with h4
              omega
          case _ hx => exact (hx t hcap).elim
        split at hf
        · injection hf with h2; subst h2; exact habs
        · injection hf with h2; subst h2; exact ht
      case _ hcap => exact Except.noConfusion hf
      case _ hcap => injection hf with h2; subst h2; exact habs
    case _ hOn => injection hf with h2; subst h2; exact habs
  split at h
  case _ c n v heq =>
    by_cases hv : v = 0
    · rw [if_pos hv] at h
      exact hterm c n h
    · rw [if_neg hv] at h
      injection h with h2; subst h2; exact habs
  case _ c n v heq => exact hterm c n h
  case _ st pl heq => injection h with h2; subst h2; exact habs

/-- Delta-time reconstruction inverts to exactly the absolute times. -/
theorem toDeltasGo_absPosGo :
    ∀ (l : List AbsEv) (prev : Int),
      absPosGo prev (toDeltasGo prev l) = l.map (fun e => (e.abs, e.msg.ev)) := by
  intro l
  induction l with
  | nil => intro prev; rfl
  | cons e r ih =>
    intro prev
    simp only [toDeltasGo, absPosGo, List.map_cons, ih, add_sub_cancel]

/-- Delta times rebuilt from a sorted list of non-negative absolute times
(starting at or above the previous time) are non-negative. -/
theorem toDeltasGo_nonneg :
    ∀ (l : List AbsEv) (prev : Int), List.Sorted absLe l →
      (∀ e ∈ l, prev ≤ e.abs) → ∀ m ∈ toDeltasGo prev l, 0 ≤ m.time := by
  intro l
  induction l with
  | nil => intro prev _ _ m hm; cases hm
  | cons e r ih =>
    intro prev hsort hge m hm
    rcases hm with _ | hm
    · have := hge e (by simp)
      simpa using by omega
    · refine ih e.abs hsort.of_cons ?_ m (by assumption)
      intro x hx
      have := List.rel_of_sorted_cons hsort x hx
      unfold absLe at this
      omega

/-- Strengthening of `Forall₂` that can use membership on the left. -/
theorem forall₂_imp_mem {α β : Type} {R S : α → β → Prop} :
    ∀ {l1 : List α} {l2 : List β}, List.Forall₂ R l1 l2 →
      (∀ a ∈ l1, ∀ b, R a b → S a b) → List.Forall₂ S l1 l2 := by
  intro l1 l2 h
  induction h with
  | nil => exact fun _ => List.Forall₂.nil
  | cons hab htail ih =>
    intro hmem
    exact List.Forall₂.cons (hmem _ (by simp) _ hab)
      (ih (fun a ha b hR => hmem a (by simp [ha]) b hR))

/-- Per-track content of claim C10: a successful `capTrack` yields the
delta-time rebuild of the sorted adjusted events, its delta times are
non-negative when the input ones are, and its prefix sums reconstruct
exactly the sorted adjusted absolute times. -/
theorem capTrack_ok_spec (maxT : Int) (tr trOut : Track) (hmax : 0 ≤ maxT)
    (hnn : ∀ m ∈ tr, 0 ≤ m.time) (h : capTrack maxT tr = .ok trOut) :
    ∃ l, capSorted maxT tr = .ok l ∧ trOut = toDeltasGo 0 l ∧
      (∀ m ∈ trOut, 0 ≤ m.time) ∧ absPos trOut = l.map (fun e => (e.abs, e.msg.ev)) := by
  unfold capTrack at h
  cases hcs : capSorted maxT tr with
  | error e => rw [hcs] at h; exact Except.noConfusion h
  | ok l =>
    rw [hcs] at h
    injection h with h2
    subst h2
    have habs0 : ∀ e ∈ absEvents tr, 0 ≤ e.abs := by
      intro e he
      exact absEventsGo_le_abs tr 0 0 hnn e he
    have hsortnn : ∀ e2 ∈ l, 0 ≤ e2.abs := by
      unfold capSorted at hcs
      cases hadj : adjustedEvents maxT tr with
      | error e => rw [hadj] at hcs; exact Except.noConfusion hcs
      | ok adj =>
        rw [hadj] at hcs
        injection hcs with h3
        subst h3
        have hNN : PairNN (pairing tr) := by
          refine pairNN_foldl (absEvents tr) PairState.init habs0 ⟨?_, ?_⟩
          · intro k t ht; cases ht
          · intro k v hv; exact Option.noConfusion hv
        have hrel2 := mapM_ok_forall₂ (adjustEvent (pairing tr) maxT) hadj
        intro e2 he2
        have he2adj : e2 ∈ adj := (List.mem_insertionSort absLe).mp he2
        obtain ⟨e, he, hf⟩ := forall₂_mem_right hrel2 e2 he2adj
        exact adjustEvent_nonneg (pairing tr) maxT e e2 hNN hmax (habs0 e he) hf
    have hsorted : List.Sorted absLe l := by
      unfold capSorted at hcs
      cases hadj : adjustedEvents maxT tr with
      | error e => rw [hadj] at hcs; exact Except.noConfusion hcs
      | ok adj =>
        rw [hadj] at hcs
        injection hcs with h3
        subst h3
        exact List.sorted_insertionSort absLe adj
    exact ⟨l, rfl, rfl, toDeltasGo_nonneg l 0 hsorted hsortnn, toDeltasGo_absPosGo l 0⟩

/-- Claim C10: for every input file with non-negative delta times, every
output track of `cap_note_lengths` has non-negative delta times, and its
prefix sums (reconstructed absolute positions) are exactly the adjusted
absolute times in sorted order: moving a terminator earlier never produces
a negative delta time in the rebuilt track. -/
theorem cap_note_lengths_nonneg_deltas (midi : MidiFile) (frac : String) (out : MidiFile)
    (hnn : ∀ tr ∈ midi.tracks, ∀ m ∈ tr, 0 ≤ m.time)
    (h : cap_note_lengths midi frac = .ok out) :
    List.Forall₂ (fun trIn trOut =>
      ∃ l, capSorted ((midi.ticks_per_beat / 2 : Nat) : Int) trIn = .ok l ∧
        trOut = toDeltasGo 0 l ∧
        (∀ m ∈ trOut, 0 ≤ m.time) ∧
        absPos trOut = l.map (fun e => (e.abs, e.msg.ev)))
      midi.tracks out.tracks := by
  unfold cap_note_lengths at h
  split at h
  · exact Except.noConfusion h
  case _ hfrac =>
    rw [show (do
        let ts ← midi.tracks.mapM (capTrack ((midi.ticks_per_beat / 2 : Nat) : Int))
        pure ({ ticks_per_beat := midi.ticks_per_beat, tracks := ts } : MidiFile) :
        Except String MidiFile) =
        (midi.tracks.mapM (capTrack ((midi.ticks_per_beat / 2 : Nat) : Int))).bind
          (fun ts => pure { ticks_per_beat := midi.ticks_per_beat, tracks := ts }) from rfl] at h
    cases hts : midi.tracks.mapM (capTrack ((midi.ticks_per_beat / 2 : Nat) : Int)) with
    | error e => rw [hts] at h; exact Except.noConfusion h
    | ok ts =>
      rw [hts] at h
      injection h with h2
      have hout : out.tracks = ts := by rw [← h2]
      rw [hout]
      have hrel := mapM_ok_forall₂ (capTrack ((midi.ticks_per_beat / 2 : Nat) : Int)) hts
      refine forall₂_imp_mem hrel ?_
      intro trIn hmem trOut hcap
      exact capTrack_ok_spec _ trIn trOut (Int.natCast_nonneg _) (hnn trIn hmem) hcap

/-- Witness for C10 at the concrete drums scenario file. -/
theorem cap_note_lengths_nonneg_deltas_witness :
    (∀ tr ∈ exD480.tracks, ∀ m ∈ tr, 0 ≤ m.time) ∧
    List.Forall₂ (fun trIn trOut =>
      ∃ l, capSorted ((exD480.ticks_per_beat / 2 : Nat) : Int) trIn = .ok l ∧
        trOut = toDeltasGo 0 l ∧
        (∀ m ∈ trOut, 0 ≤ m.time) ∧
        absPos trOut = l.map (fun e => (e.abs, e.msg.ev)))
      exD480.tracks exD480Capped.tracks :=
  ⟨by decide, cap_note_lengths_nonneg_deltas exD480 "1/8" exD480Capped (by decide) rfl⟩

/-! ### Claim C2: LIFO pairing and capped durations -/

/-- Counterexample to claim C2: on `exT2`, two note-ons with the same
`(note, channel)` share absolute start time 0.  The LIFO pairing links the
terminator at time 100 (original index 2) to start 0, a pair of duration
100 that the claim says must stay `min(100, 240) = 100`; but the rebuilt
event with index 2 sits at absolute time 200, because the second pop
overwrote the shared `note_pairs` key `(60, 0, 0)`. -/
theorem cap_lifo_same_start_counterexample :
    (pairing exT2).offToOn (100, 2) = some 0 ∧
    adjustedEvents 240 exT2 = .ok
      [⟨0, 0, ⟨0, .noteOn 0 60 64⟩⟩, ⟨0, 1, ⟨0, .noteOn 0 60 64⟩⟩,
       ⟨200, 2, ⟨0, .noteOff 0 60 0⟩⟩, ⟨200, 3, ⟨100, .noteOff 0 60 64⟩⟩] ∧
    ((0 : Int) + min (100 - 0) 240 ≠ 200) :=
  ⟨rfl, rfl, by decide⟩

/-- Indices produced by the absolute-time conversion grow from the start
index. -/
theorem absEventsGo_idx_ge :
    ∀ (tr : Track) (t : Int) (i : Nat), ∀ e ∈ absEventsGo t i tr, i ≤ e.idx := by
  intro tr
  induction tr with
  | nil => intro t i e he; cases he
  | cons m r ih =>
    intro t i e he
    rcases he with _ | he
    · simp
    · have := ih (t + m.time) (i + 1) e (by assumption)
      omega

/-- Original indices are strictly increasing along the converted track. -/
theorem absEventsGo_pairwise_idx :
    ∀ (tr : Track) (t : Int) (i : Nat),
      (absEventsGo t i tr).Pairwise (fun a b => a.idx < b.idx) := by
  intro tr
  induction tr with
  | nil => intro t i; exact List.Pairwise.nil
  | cons m r ih =>
    intro t i
    refine List.Pairwise.cons ?_ (ih (t + m.time) (i + 1))
    intro b hb
    have := absEventsGo_idx_ge r (t + m.time) (i + 1) b hb
    simp only
    omega

/-- The absolute-time conversion preserves the number of events. -/
theorem absEventsGo_length :
    ∀ (tr : Track) (t : Int) (i : Nat), (absEventsGo t i tr).length = tr.length := by
  intro tr
  induction tr with
  | nil => intro t i; rfl
  | cons m r ih => intro t i; simp [absEventsGo, ih]

/-- The delta-time rebuild preserves the number of events. -/
theorem toDeltasGo_length :
    ∀ (l : List AbsEv) (prev : Int), (toDeltasGo prev l).length = l.length := by
  intro l
  induction l with
  | nil => intro prev; rfl
  | cons e r ih => intro prev; simp [toDeltasGo, ih]

/-- A non-terminator passes through the rebuild unchanged. -/
theorem adjustEvent_nonterm (s : PairState) (maxT : Int) (e : AbsEv)
    (h : e.msg.ev.isTerm = false) : adjustEvent s maxT e = .ok e := by
  unfold adjustEvent
  cases hev : e.msg.ev with
  | noteOn c n v =>
    rw [hev] at h
    simp only [Ev.isTerm, decide_eq_false_iff_not] at h
    dsimp only
    rw [if_neg h]
  | noteOff c n v => rw [hev] at h; simp [Ev.isTerm] at h
  | meta a b => rfl

/-- An orphan terminator (no recorded link) passes through unchanged. -/
theorem adjustEvent_orphan (s : PairState) (maxT : Int) (e : AbsEv)
    (hterm : e.msg.ev.isTerm = true)
    (hOn : s.offToOn (e.abs, e.idx) = none) : adjustEvent s maxT e = .ok e := by
  unfold adjustEvent adjustTerm
  cases hev : e.msg.ev with
  | noteOn c n v =>
    rw [hev] at hterm
    simp only [Ev.isTerm, decide_eq_true_eq] at hterm
    dsimp only
    rw [if_pos hterm, hOn]
  | noteOff c n v => dsimp only; rw [hOn]
  | meta a b => rfl

/-- A matched terminator whose pair entry still stores its own end time is
rebuilt at `start + min(duration, maxT)` with its original index. -/
theorem adjustEvent_matched (s : PairState) (maxT : Int) (e : AbsEv) (tOn : Int)
    (hterm : e.msg.ev.isTerm = true)
    (hOn : s.offToOn (e.abs, e.idx) = some tOn)
    (hpair : s.pairs (e.msg.ev.key, tOn) = some (some e.abs)) :
    ∃ e2, adjustEvent s maxT e = .ok e2 ∧ e2.idx = e.idx ∧
      e2.abs = tOn + min (e.abs - tOn) maxT := by
  have hadj : ∀ c n : Nat, e.msg.ev.key = (n, c) →
      ∃ e2, adjustTerm s maxT e c n = .ok e2 ∧ e2.idx = e.idx ∧
        e2.abs = tOn + min (e.abs - tOn) maxT := by
    intro c n hkey
    rw [hkey] at hpair
    unfold adjustTerm cappedOff
    rw [hOn]
    dsimp only
    rw [hpair]
    dsimp only
    by_cases hlong : e.abs - tOn > maxT
    · rw [if_pos hlong]
      dsimp only
      have hne : ¬(tOn + maxT = e.abs) := by omega
      rw [if_neg hne]
      refine ⟨_, rfl, rfl, ?_⟩
      simp only
      omega
    · rw [if_neg hlong]
      dsimp only
      rw [if_pos rfl]
      refine ⟨e, rfl, rfl, ?_⟩
      omega
  unfold adjustEvent
  cases hev : e.msg.ev with
  | noteOn c n v =>
    rw [hev] at hterm
    simp only [Ev.isTerm, decide_eq_true_eq] at hterm
    dsimp only
    rw [if_pos hterm]
    exact hadj c n (by rw [hev]; rfl)
  | noteOff c n v => exact hadj c n (by rw [hev]; rfl)
  | meta a b => rw [hev] at hterm; simp [Ev.isTerm] at hterm

/-- `OnIn` is monotone in the processed prefix. -/
theorem OnIn_mono {P : List AbsEv} {e : AbsEv} {k : Nat × Nat} {t : Int}
    (h : OnIn P k t) : OnIn (P ++ [e]) k t := by
  obtain ⟨p, hp, ha, hb, hc⟩ := h
  exact ⟨p, by simp [hp], ha, hb, hc⟩

/-- A terminator step preserves the pairing invariant. -/
theorem pairInv_termStep (P : List AbsEv) (e : AbsEv) (s : PairState) (c n : Nat)
    (hIdx : ∀ p ∈ P, p.idx < e.idx)
    (hkey : e.msg.ev.key = (n, c)) (hterm : e.msg.ev.isTerm = true)
    (h : PairInv P s) : PairInv (P ++ [e]) (termStep s (n, c) e) := by
  obtain ⟨h1, h2, h3, h4⟩ := h
  unfold termStep
  cases hs : s.stks (n, c) with
  | nil =>
    refine ⟨fun k t ht => OnIn_mono (h1 k t ht), h2, ?_, ?_⟩
    · intro e2 he2 hterm2 t hOn2
      rcases List.mem_append.mp he2 with hin | hin
      · obtain ⟨hp, hOnIn, hstk⟩ := h3 e2 hin hterm2 t hOn2
        exact ⟨hp, OnIn_mono hOnIn, hstk⟩
      · have he2e : e2 = e := List.mem_singleton.mp hin
        subst he2e
        obtain ⟨p, hp, hpi⟩ := h4 _ _ _ hOn2
        exact absurd hpi (by have := hIdx p hp; omega)
    · intro a i t hOn2
      obtain ⟨p, hp, hpi⟩ := h4 a i t hOn2
      exact ⟨p, by simp [hp], hpi⟩
  | cons tOn rest =>
    have htOn_stk : tOn ∈ s.stks (n, c) := by rw [hs]; simp
    have hrest_sub : ∀ x, x ∈ rest → x ∈ s.stks (n, c) := by
      intro x hx
      rw [hs]
      exact List.mem_cons_of_mem _ hx
    have hnodup := h2 (n, c)
    rw [hs] at hnodup
    have htOn_notin_rest : tOn ∉ rest := (List.nodup_cons.mp hnodup).1
    refine ⟨?_, ?_, ?_, ?_⟩
    · intro k t ht
      dsimp only at ht
      by_cases hk : k = (n, c)
      · rw [if_pos hk] at ht
        subst hk
        exact OnIn_mono (h1 (n, c) t (hrest_sub t ht))
      · rw [if_neg hk] at ht
        exact OnIn_mono (h1 k t ht)
    · intro k
      dsimp only
      by_cases hk : k = (n, c)
      · rw [if_pos hk]
        exact (List.nodup_cons.mp hnodup).2
      · rw [if_neg hk]
        exact h2 k
    · intro e2 he2 hterm2 t hOn2
      dsimp only at hOn2 ⊢
      rcases List.mem_append.mp he2 with hin | hin
      · have hne_key : ¬((e2.abs, e2.idx) = (e.abs, e.idx)) := by
          intro hcontra
          have hi : e2.idx = e.idx := congrArg Prod.snd hcontra
          have := hIdx e2 hin
          omega
        rw [if_neg hne_key] at hOn2
        obtain ⟨hp, hOnIn, hstk⟩ := h3 e2 hin hterm2 t hOn2
        have hne_pair : ¬((e2.msg.ev.key, t) = ((n, c), tOn)) := by
          intro hcontra
          have hk2 : e2.msg.ev.key = (n, c) := congrArg Prod.fst hcontra
          have ht2 : t = tOn := congrArg Prod.snd hcontra
          rw [hk2, ht2] at hstk
          exact hstk htOn_stk
        refine ⟨?_, OnIn_mono hOnIn, ?_⟩
        · rw [if_neg hne_pair]
          exact hp
        · by_cases hk : e2.msg.ev.key = (n, c)
          · rw [if_pos hk]
            intro hmem
            exact hstk (by rw [hk]; exact hrest_sub t hmem)
          · rw [if_neg hk]
            exact hstk
      · have he2e : e2 = e := List.mem_singleton.mp hin
        subst he2e
        rw [if_pos rfl] at hOn2
        injection hOn2 with ht
        subst ht
        refine ⟨?_, ?_, ?_⟩
        · rw [hkey, if_pos rfl]
        · rw [hkey]
          exact OnIn_mono (h1 (n, c) tOn htOn_stk)
        · rw [hkey, if_pos rfl]
          exact htOn_notin_rest
    · intro a i t hOn2
      dsimp only at hOn2
      by_cases hk : (a, i) = (e.abs, e.idx)
      · have hi : i = e.idx := congrArg Prod.snd hk
        exact ⟨e, by simp, hi.symm⟩
      · rw [if_neg hk] at hOn2
        obtain ⟨p, hp, hpi⟩ := h4 a i t hOn2
        exact ⟨p, by simp [hp], hpi⟩

/-- One pairing step preserves the pairing invariant, given that the new
event is distinct (as a positive note-on) from all processed ones and has a
larger original index. -/
theorem pairInv_step (P : List AbsEv) (e : AbsEv) (s : PairState)
    (hD : ∀ p ∈ P, DistinctOn p e) (hIdx : ∀ p ∈ P, p.idx < e.idx)
    (h : PairInv P s) : PairInv (P ++ [e]) (pairStep s e) := by
  obtain ⟨h1, h2, h3, h4⟩ := h
  unfold pairStep
  cases hev : e.msg.ev with
  | meta a b =>
    dsimp only
    refine ⟨fun k t ht => OnIn_mono (h1 k t ht), h2, ?_, ?_⟩
    · intro e2 he2 hterm2 t hOn2
      rcases List.mem_append.mp he2 with hin | hin
      · obtain ⟨hp, hOnIn, hstk⟩ := h3 e2 hin hterm2 t hOn2
        exact ⟨hp, OnIn_mono hOnIn, hstk⟩
      · have he2e : e2 = e := List.mem_singleton.mp hin
        subst he2e
        rw [hev] at hterm2
        simp [Ev.isTerm] at hterm2
    · intro a2 i t hOn2
      obtain ⟨p, hp, hpi⟩ := h4 a2 i t hOn2
      exact ⟨p, by simp [hp], hpi⟩
  | noteOff c n v =>
    dsimp only
    have hkey : e.msg.ev.key = (n, c) := by rw [hev]; rfl
    have hterm : e.msg.ev.isTerm = true := by rw [hev]; rfl
    exact pairInv_termStep P e s c n hIdx hkey hterm ⟨h1, h2, h3, h4⟩
  | noteOn c n v =>
    dsimp only
    by_cases hv : v > 0
    · rw [if_pos hv]
      have hOnPos : e.msg.ev.isOnPos = true := by
        rw [hev]
        simp [Ev.isOnPos, hv]
      have hkey : e.msg.ev.key = (n, c) := by rw [hev]; rfl
      have hfresh : ¬ OnIn P (n, c) e.abs := by
        rintro ⟨p, hp, hppos, hpkey, hpabs⟩
        exact hD p hp hppos hOnPos (by rw [hpkey, hkey]) hpabs
      refine ⟨?_, ?_, ?_, ?_⟩
      · intro k t ht
        dsimp only at ht
        by_cases hk : k = (n, c)
        · rw [if_pos hk] at ht
          subst hk
          rcases List.mem_cons.mp ht with heq | ht2
          · subst heq
            exact ⟨e, by simp, hOnPos, hkey, rfl⟩
          · exact OnIn_mono (h1 (n, c) t ht2)
        · rw [if_neg hk] at ht
          exact OnIn_mono (h1 k t ht)
      · intro k
        dsimp only
        by_cases hk : k = (n, c)
        · rw [if_pos hk]
          refine List.nodup_cons.mpr ⟨?_, h2 (n, c)⟩
          intro hmem
          exact hfresh (h1 (n, c) e.abs hmem)
        · rw [if_neg hk]
          exact h2 k
      · intro e2 he2 hterm2 t hOn2
        dsimp only at hOn2 ⊢
        rcases List.mem_append.mp he2 with hin | hin
        · obtain ⟨hp, hOnIn, hstk⟩ := h3 e2 hin hterm2 t hOn2
          have hne_pair : ¬((e2.msg.ev.key, t) = ((n, c), e.abs)) := by
            intro hcontra
            have hk2 : e2.msg.ev.key = (n, c) := congrArg Prod.fst hcontra
            have ht2 : t = e.abs := congrArg Prod.snd hcontra
            rw [hk2, ht2] at hOnIn
            exact hfresh hOnIn
          refine ⟨?_, OnIn_mono hOnIn, ?_⟩
          · rw [if_neg hne_pair]
            exact hp
          · by_cases hk : e2.msg.ev.key = (n, c)
            · rw [if_pos hk]
              intro hmem
              rcases List.mem_cons.mp hmem with heq | hmem2
              · rw [hk, heq] at hOnIn
                exact hfresh hOnIn
              · exact hstk (by rw [hk]; exact hmem2)
            · rw [if_neg hk]
              exact hstk
        · have he2e : e2 = e := List.mem_singleton.mp hin
          subst he2e
          rw [hev] at hterm2
          simp only [Ev.isTerm, decide_eq_true_eq] at hterm2
          exact absurd hterm2 (by omega)
      · intro a2 i t hOn2
        dsimp only at hOn2
        obtain ⟨p, hp, hpi⟩ := h4 a2 i t hOn2
        exact ⟨p, by simp [hp], hpi⟩
    · rw [if_neg hv]
      have hkey : e.msg.ev.key = (n, c) := by rw [hev]; rfl
      have hterm : e.msg.ev.isTerm = true := by
        rw [hev]
        simp only [Ev.isTerm, decide_eq_true_eq]
        omega
      exact pairInv_termStep P e s c n hIdx hkey hterm ⟨h1, h2, h3, h4⟩

/-- The pairing invariant holds after folding over any suffix, given the
distinctness and index-ordering side conditions. -/
theorem pairInv_foldl :
    ∀ (R P : List AbsEv) (s : PairState),
      (∀ a ∈ P, ∀ b ∈ R, DistinctOn a b) →
      (∀ a ∈ P, ∀ b ∈ R, a.idx < b.idx) →
      R.Pairwise DistinctOn →
      R.Pairwise (fun a b => a.idx < b.idx) →
      PairInv P s → PairInv (P ++ R) (R.foldl pairStep s) := by
  intro R
  induction R with
  | nil =>
    intro P s _ _ _ _ h
    simpa using h
  | cons e R2 ih =>
    intro P s hcrossD hcrossI hpD hpI h
    have hD : ∀ p ∈ P, DistinctOn p e := fun p hp => hcrossD p hp e (by simp)
    have hI : ∀ p ∈ P, p.idx < e.idx := fun p hp => hcrossI p hp e (by simp)
    have hstep := pairInv_step P e s hD hI h
    have hcd : ∀ a ∈ P ++ [e], ∀ b ∈ R2, DistinctOn a b := by
      intro a ha b hb
      rcases List.mem_append.mp ha with ha | ha
      · exact hcrossD a ha b (by simp [hb])
      · have hae : a = e := List.mem_singleton.mp ha
        subst hae
        exact (List.pairwise_cons.mp hpD).1 b hb
    have hci : ∀ a ∈ P ++ [e], ∀ b ∈ R2, a.idx < b.idx := by
      intro a ha b hb
      rcases List.mem_append.mp ha with ha | ha
      · exact hcrossI a ha b (by simp [hb])
      · have hae : a = e := List.mem_singleton.mp ha
        subst hae
        exact (List.pairwise_cons.mp hpI).1 b hb
    have hmain := ih (P ++ [e]) (pairStep s e) hcd hci
      (List.pairwise_cons.mp hpD).2 (List.pairwise_cons.mp hpI).2 hstep
    rw [List.foldl_cons, List.append_cons]
    exact hmain

/-- The pairing invariant holds for the full pairing scan of a track whose
positive note-ons have pairwise distinct `(note, channel, start)` keys. -/
theorem pairInv_pairing (tr : Track) (hd : (absEvents tr).Pairwise DistinctOn) :
    PairInv (absEvents tr) (pairing tr) := by
  have hbase : PairInv [] PairState.init := by
    refine ⟨?_, ?_, ?_, ?_⟩
    · intro k t ht
      cases ht
    · intro k
      exact List.nodup_nil
    · intro e2 he2
      cases he2
    · intro a i t hOn
      exact Option.noConfusion hOn
  have hmain := pairInv_foldl (absEvents tr) [] PairState.init
    (by intro a ha; cases ha) (by intro a ha; cases ha)
    hd (absEventsGo_pairwise_idx tr 0 0) hbase
  simpa [pairing] using hmain

/-- Claim C2 amended: for every input track whose positive-velocity note-ons
have pairwise distinct `(note, channel, absolute start)` triples, and every
`(start, end)` pair produced by the per-`(note, channel)` LIFO pairing of
note-ons with terminators, the corresponding event in the sorted rebuilt
output of `cap_note_lengths` keeps its original index and sits at absolute
time `start + min(end - start, maxTicks)` (duration `min(end-start, maxT)`);
every terminator with no link is passed through unmodified; and the output
track has exactly as many events as the input.  Without the distinctness
hypothesis the property FAILS (see the counterexample): two note-ons sharing
`(note, channel, start)` overwrite one `note_pairs` dictionary key. -/
theorem capTrack_lifo_durations (tr : Track) (maxT : Int)
    (hd : (absEvents tr).Pairwise DistinctOn) :
    ∃ sorted, capSorted maxT tr = .ok sorted ∧
      sorted.length = tr.length ∧
      (∀ e ∈ absEvents tr, e.msg.ev.isTerm = true →
        ∀ tOn, (pairing tr).offToOn (e.abs, e.idx) = some tOn →
          ∃ e2 ∈ sorted, e2.idx = e.idx ∧ e2.abs = tOn + min (e.abs - tOn) maxT) ∧
      (∀ e ∈ absEvents tr, e.msg.ev.isTerm = true →
        (pairing tr).offToOn (e.abs, e.idx) = none → e ∈ sorted) ∧
      ∃ out, capTrack maxT tr = .ok out ∧ out.length = tr.length := by
  obtain ⟨h1, h2, h3, h4⟩ := pairInv_pairing tr hd
  have htotal : ∀ e ∈ absEvents tr, ∃ e2, adjustEvent (pairing tr) maxT e = .ok e2 := by
    intro e he
    by_cases hterm : e.msg.ev.isTerm = true
    · cases hOn : (pairing tr).offToOn (e.abs, e.idx) with
      | none => exact ⟨e, adjustEvent_orphan _ _ _ hterm hOn⟩
      | some tOn =>
        obtain ⟨hp, _, _⟩ := h3 e he hterm tOn hOn
        obtain ⟨e2, he2, _, _⟩ := adjustEvent_matched _ maxT e tOn hterm hOn hp
        exact ⟨e2, he2⟩
    · exact ⟨e, adjustEvent_nonterm _ _ _ (by simpa using hterm)⟩
  obtain ⟨adj, hadj, hrel⟩ :=
    forall₂_ok_mapM (adjustEvent (pairing tr) maxT) (absEvents tr) htotal
  have hsorted_eq : capSorted maxT tr = .ok (List.insertionSort absLe adj) := by
    unfold capSorted adjustedEvents
    rw [hadj]
    rfl
  have hlen_adj : adj.length = tr.length := by
    rw [← hrel.length_eq]
    exact absEventsGo_length tr 0 0
  refine ⟨List.insertionSort absLe adj, hsorted_eq, ?_, ?_, ?_, ?_⟩
  · rw [List.length_insertionSort]
    exact hlen_adj
  · intro e he hterm tOn hOn
    obtain ⟨hp, _, _⟩ := h3 e he hterm tOn hOn
    obtain ⟨e2, he2eq, hidx, habs⟩ := adjustEvent_matched _ maxT e tOn hterm hOn hp
    obtain ⟨b, hb, hfb⟩ := forall₂_mem_left hrel e he
    have hbe : e2 = b := by
      rw [he2eq] at hfb
      injection hfb
    exact ⟨b, (List.mem_insertionSort absLe).mpr hb, hbe ▸ hidx, hbe ▸ habs⟩
  · intro e he hterm hOn
    have heq := adjustEvent_orphan (pairing tr) maxT e hterm hOn
    obtain ⟨b, hb, hfb⟩ := forall₂_mem_left hrel e he
    have hbe : e = b := by
      rw [heq] at hfb
      injection hfb
    rw [hbe]
    exact (List.mem_insertionSort absLe).mpr hb
  · refine ⟨toDeltasGo 0 (List.insertionSort absLe adj), ?_, ?_⟩
    · unfold capTrack
      rw [hsorted_eq]
      rfl
    · rw [toDeltasGo_length, List.length_insertionSort]
      exact hlen_adj

/-- Witness for the amended C2 at the concrete track `exT4` (one positive
note-on, one velocity-0 terminator, distinctness trivially satisfied). -/
theorem capTrack_lifo_durations_witness :
    (absEvents exT4).Pairwise DistinctOn ∧
    (∃ sorted, capSorted 240 exT4 = .ok sorted ∧
      sorted.length = exT4.length ∧
      (∀ e ∈ absEvents exT4, e.msg.ev.isTerm = true →
        ∀ tOn, (pairing exT4).offToOn (e.abs, e.idx) = some tOn →
          ∃ e2 ∈ sorted, e2.idx = e.idx ∧ e2.abs = tOn + min (e.abs - tOn) 240) ∧
      (∀ e ∈ absEvents exT4, e.msg.ev.isTerm = true →
        (pairing exT4).offToOn (e.abs, e.idx) = none → e ∈ sorted) ∧
      ∃ out, capTrack 240 exT4 = .ok out ∧ out.length = exT4.length) :=
  ⟨by decide, capTrack_lifo_durations exT4 240 (by decide)⟩
